import Mathlib

/-!
# CloudflareSpeedTest: result records, ranking and delay filtering

A shallow embedding of `utils/csv.go` (package `utils`): the probe record
with its lazily cached loss rate, the two `sort.Interface` orderings, the
delay-window filter applied by `main` and the console table printer.

Conventions of the embedding.

* Go `int` and `time.Duration` values are `Int`; a `time.Duration` counts
  nanoseconds. The one arithmetic operation on them, `Sended - Received`,
  wraps at 64 bits (`wrapInt64`).
* Go `float32`/`float64` values are `GoFloat`: a rational, an infinity or NaN.
  Every finite IEEE-754 value is a rational, and `==`, `!=`, `<`, `>` on floats
  are the rational comparisons extended to infinities and NaN. The two zeros
  are identified: no comparison tells them apart, and the only divisor the
  program forms is a converted integer, whose zero is `+0`.
* `float32` arithmetic rounds to nearest, ties to even, with a 24 bit
  significand (`F32.roundQ`), gradual underflow below `2^-126` and overflow to
  infinity from `2^128`.
* Package level variables (`InputMaxDelay`, `InputMinDelay`, `PrintNum`,
  `Output`) are explicit arguments; `Print`, which assigns `PrintNum`, returns
  its new value.
* Slices are lists. An index expression out of range panics: the functions
  that index return `Option`, `none` standing for the panic.
-/

namespace CloudflareSpeedTest

/-! ## Floating point values -/

/-- A Go floating-point value: finite (a rational), infinite, or NaN. -/
inductive GoFloat where
  | fin (q : ℚ)
  | inf (neg : Bool)
  | nan
  deriving DecidableEq, Repr

namespace GoFloat

/-- Go `a == b` on floats: NaN equals nothing, not even itself. -/
def eq : GoFloat → GoFloat → Bool
  | fin a, fin b => decide (a = b)
  | inf s, inf t => s == t
  | _, _ => false

/-- Go `a != b` on floats. -/
def ne (a b : GoFloat) : Bool := !(eq a b)

/-- Go `a < b` on floats: false as soon as one side is NaN. -/
def lt : GoFloat → GoFloat → Bool
  | fin a, fin b => decide (a < b)
  | fin _, inf neg => !neg
  | inf neg, fin _ => neg
  | inf s, inf t => s && !t
  | _, _ => false

/-- Go `a > b` on floats. -/
def gt (a b : GoFloat) : Bool := lt b a

/-- Go `a <= b` on floats. -/
def le (a b : GoFloat) : Bool := lt a b || eq a b

/-- Whether the value is NaN. -/
def isNaN : GoFloat → Bool
  | nan => true
  | _ => false

end GoFloat

namespace F32

/-- Round a rational to the nearest integer, ties to the even one. -/
def rne (r : ℚ) : ℤ :=
  let f := ⌊r⌋
  let d := r - f
  if d < 1 / 2 then f
  else if 1 / 2 < d then f + 1
  else if f % 2 = 0 then f else f + 1

/-- Exponent of the unit in the last place of the binary32 format at `x`:
`⌊log₂ |x|⌋ - 23`, and `-149` throughout the subnormal range. -/
def ulpExp (x : ℚ) : ℤ := max (Int.log 2 |x| - 23) (-149)

/-- Round-to-nearest-even onto the binary32 grid, exponent unbounded above. -/
def roundQ (x : ℚ) : ℚ := rne (x / 2 ^ ulpExp x) * 2 ^ ulpExp x

/-- The `float32` nearest to a rational; overflows to an infinity. -/
def ofRat (x : ℚ) : GoFloat :=
  let r := roundQ x
  if 2 ^ 128 ≤ |r| then GoFloat.inf (decide (r < 0)) else GoFloat.fin r

/-- Go conversion `float32(n)` of an integer. -/
def ofInt (n : Int) : GoFloat := ofRat n

/-- Go `a / b` on `float32` operands. -/
def div : GoFloat → GoFloat → GoFloat
  | GoFloat.nan, _ => GoFloat.nan
  | _, GoFloat.nan => GoFloat.nan
  | GoFloat.fin a, GoFloat.fin b =>
    if b = 0 then (if a = 0 then GoFloat.nan else GoFloat.inf (decide (a < 0)))
    else ofRat (a / b)
  | GoFloat.fin _, GoFloat.inf _ => GoFloat.fin 0
  | GoFloat.inf s, GoFloat.fin b => GoFloat.inf (s != decide (b < 0))
  | GoFloat.inf _, GoFloat.inf _ => GoFloat.nan

end F32

/-! ## Constants and package variables -/

/-- `time.Millisecond`, in nanoseconds. -/
def Millisecond : Int := 1000000

/-- The constant `maxDelay = 9999 * time.Millisecond`. -/
def maxDelay : Int := 9999 * Millisecond

/-- The constant `minDelay = 0 * time.Millisecond`. -/
def minDelay : Int := 0 * Millisecond

/-- Two's complement wrap-around of a 64 bit signed integer. -/
def wrapInt64 (n : Int) : Int := (n + 2 ^ 63) % 2 ^ 64 - 2 ^ 63

/-- `NoPrintResult`: whether printing of the results is switched off. -/
def NoPrintResult (PrintNum : Int) : Bool := PrintNum == 0

/-- `noOutput`: whether writing the result file is switched off. -/
def noOutput (Output : String) : Bool := Output == "" || Output == " "

/-! ## Records -/

/-- `PingData`. The address is kept as its text, what `IP.String()` returns. -/
structure PingData where
  IP : String
  Sended : Int
  Received : Int
  Delay : Int
  deriving DecidableEq, Repr

/-- `CloudflareIPData`: a `PingData` with the cached loss rate (`float32`,
zero meaning not yet computed) and the download speed (`float64`). -/
structure CloudflareIPData extends PingData where
  recvRate : GoFloat
  DownloadSpeed : GoFloat
  deriving DecidableEq, Repr

/-- `getRecvRate`: returns the loss rate, computing and caching it when the
cached value compares equal to zero. The record after the call is returned
along with the rate (the receiver is a pointer). -/
def CloudflareIPData.getRecvRate (cf : CloudflareIPData) : GoFloat × CloudflareIPData :=
  if GoFloat.eq cf.recvRate (GoFloat.fin 0) then
    let pingLost := wrapInt64 (cf.Sended - cf.Received)
    let rate := F32.div (F32.ofInt pingLost) (F32.ofInt cf.Sended)
    (rate, { cf with recvRate := rate })
  else
    (cf.recvRate, cf)

/-- The state of a record after `n` calls of `getRecvRate`. -/
def CloudflareIPData.afterCalls : Nat → CloudflareIPData → CloudflareIPData
  | 0, cf => cf
  | n + 1, cf => CloudflareIPData.afterCalls n cf.getRecvRate.2

/-- The rate `getRecvRate` computes from the counts of a record. -/
def CloudflareIPData.computedRate (cf : CloudflareIPData) : GoFloat :=
  F32.div (F32.ofInt (wrapInt64 (cf.Sended - cf.Received))) (F32.ofInt cf.Sended)

/-- The cached rate of a record is either unset or what `getRecvRate` stored:
the field is unexported and written nowhere else. -/
def CloudflareIPData.CacheValid (cf : CloudflareIPData) : Prop :=
  cf.recvRate = GoFloat.fin 0 ∨ cf.recvRate = cf.computedRate

instance (cf : CloudflareIPData) : Decidable cf.CacheValid := by
  unfold CloudflareIPData.CacheValid
  exact inferInstance

/-! ## The delay filter -/

/-- `PingDelaySet`. -/
abbrev PingDelaySet := List CloudflareIPData

/-- The `for _, v := range s` loop of `FilterDelay`; `data` is the slice built
so far. -/
def PingDelaySet.filterLoop (InputMaxDelay InputMinDelay : Int) :
    PingDelaySet → PingDelaySet → PingDelaySet
  | data, [] => data
  | data, v :: rest =>
    if v.Delay > InputMaxDelay then data
    else if v.Delay < InputMinDelay then
      PingDelaySet.filterLoop InputMaxDelay InputMinDelay data rest
    else PingDelaySet.filterLoop InputMaxDelay InputMinDelay (data ++ [v]) rest

/-- `PingDelaySet.FilterDelay`. -/
def PingDelaySet.FilterDelay (InputMaxDelay InputMinDelay : Int) (s : PingDelaySet) :
    PingDelaySet :=
  if InputMaxDelay > maxDelay || InputMinDelay < minDelay then s
  else PingDelaySet.filterLoop InputMaxDelay InputMinDelay [] s

/-! ## The orderings -/

/-- `PingDelaySet.Len`. -/
def PingDelaySet.Len (s : PingDelaySet) : Int := s.length

/-- `PingDelaySet.Less`: loss rate first, average delay second. Both calls of
`getRecvRate` may fill a cache, so the slice after the call is returned too. -/
def PingDelaySet.Less (s : PingDelaySet) (i j : Nat) : Option (Bool × PingDelaySet) := do
  let a ← s[i]?
  let (iRate, a1) := a.getRecvRate
  let s1 := s.set i a1
  let b ← s1[j]?
  let (jRate, b1) := b.getRecvRate
  let s2 := s1.set j b1
  let x ← s2[i]?
  let y ← s2[j]?
  if GoFloat.ne iRate jRate then
    pure (GoFloat.lt iRate jRate, s2)
  else
    pure (decide (x.Delay < y.Delay), s2)

/-- `PingDelaySet.Swap`. -/
def PingDelaySet.Swap (s : PingDelaySet) (i j : Nat) : Option PingDelaySet := do
  let a ← s[i]?
  let b ← s[j]?
  pure ((s.set i b).set j a)

/-- `DownloadSpeedSet`. -/
abbrev DownloadSpeedSet := List CloudflareIPData

/-- `DownloadSpeedSet.Len`. -/
def DownloadSpeedSet.Len (s : DownloadSpeedSet) : Int := s.length

/-- `DownloadSpeedSet.Less`. -/
def DownloadSpeedSet.Less (s : DownloadSpeedSet) (i j : Nat) : Option Bool := do
  let a ← s[i]?
  let b ← s[j]?
  pure (GoFloat.gt a.DownloadSpeed b.DownloadSpeed)

/-- `DownloadSpeedSet.Swap`. -/
def DownloadSpeedSet.Swap (s : DownloadSpeedSet) (i j : Nat) : Option DownloadSpeedSet := do
  let a ← s[i]?
  let b ← s[j]?
  pure ((s.set i b).set j a)

/-- Go's `sort.IsSorted` on a `DownloadSpeedSet`: no element is `Less` than
the one before it (the library checks `Less(i, i-1)` for `i` from `n - 1` down
to 1). -/
def DownloadSpeedSet.IsSorted (s : DownloadSpeedSet) : Bool :=
  (List.range (s.length - 1)).all fun k =>
    DownloadSpeedSet.Less s (k + 1) k == some false

/-! ## Rendering -/

/-- The library functions the row rendering calls, taken as given:
`strconv.Itoa`, `strconv.FormatFloat(x, 'f', 2, 32)`, the `float64` value of
`d.Seconds() * 1000` and of `x / 1024 / 1024`. -/
structure Strconv where
  Itoa : Int → String
  FormatFloat : GoFloat → String
  millis : Int → GoFloat
  mebi : GoFloat → GoFloat

/-- `CloudflareIPData.toString`: the six cells of a row. -/
def CloudflareIPData.toString (lib : Strconv) (cf : CloudflareIPData) : List String :=
  [cf.IP,
   lib.Itoa cf.Sended,
   lib.Itoa cf.Received,
   lib.FormatFloat cf.getRecvRate.1,
   lib.FormatFloat (lib.millis cf.Delay),
   lib.FormatFloat (lib.mebi cf.DownloadSpeed)]

/-- `convertToString`. The loop variable is a copy, so the rate cached by
`toString` does not reach the slice. -/
def convertToString (lib : Strconv) (data : List CloudflareIPData) : List (List String) :=
  data.map (CloudflareIPData.toString lib)

/-- What `Print` writes to the console, one value per `fmt` call. `wide` tells
which of the two pairs of format strings is in use (the 40/42 column pair, for
addresses longer than 15 bytes). -/
inductive Line where
  | skipped
  | head (wide : Bool)
  | row (wide : Bool) (cells : List String)
  | written (Output : String)
  deriving DecidableEq, Repr

/-- The first loop of `Print`, `for i := 0; i < PrintNum; i++`, started at `i`
with `todo` iterations left: whether some first cell is longer than 15 bytes. -/
def DownloadSpeedSet.scanWide (dateString : List (List String)) : Nat → Nat → Option Bool
  | _, 0 => some false
  | i, todo + 1 => do
    let r ← dateString[i]?
    let c ← r[0]?
    if c.utf8ByteSize > 15 then pure true
    else DownloadSpeedSet.scanWide dateString (i + 1) todo

/-- The second loop of `Print`: one `row` line per index, reading the six
cells of `dateString[i]`. -/
def DownloadSpeedSet.printRows (dateString : List (List String)) (wide : Bool) :
    Nat → Nat → Option (List Line)
  | _, 0 => some []
  | i, todo + 1 => do
    let r ← dateString[i]?
    let c0 ← r[0]?
    let c1 ← r[1]?
    let c2 ← r[2]?
    let c3 ← r[3]?
    let c4 ← r[4]?
    let c5 ← r[5]?
    let rest ← DownloadSpeedSet.printRows dateString wide (i + 1) todo
    pure (Line.row wide [c0, c1, c2, c3, c4, c5] :: rest)

/-- `DownloadSpeedSet.Print`: the new value of `PrintNum` and the lines
written; `none` when an index expression is out of range. -/
def DownloadSpeedSet.Print (lib : Strconv) (PrintNum : Int) (Output : String)
    (s : DownloadSpeedSet) : Option (Int × List Line) :=
  if NoPrintResult PrintNum then some (PrintNum, [])
  else if DownloadSpeedSet.Len s ≤ 0 then some (PrintNum, [Line.skipped])
  else
    let dateString := convertToString lib s
    let PrintNum1 : Int := if (dateString.length : Int) < PrintNum then dateString.length else PrintNum
    do
      let wide ← DownloadSpeedSet.scanWide dateString 0 PrintNum1.toNat
      let rows ← DownloadSpeedSet.printRows dateString wide 0 PrintNum1.toNat
      let tail := if !noOutput Output then [Line.written Output] else []
      pure (PrintNum1, Line.head wide :: rows ++ tail)

/-! ## Sample records -/

/-- A fresh probe record (cache unset, never benchmarked) with the given
delay in milliseconds and probe counts. -/
def probe (delayMs sended received : Int) : CloudflareIPData :=
  { IP := "192.0.2.1", Sended := sended, Received := received,
    Delay := delayMs * Millisecond, recvRate := GoFloat.fin 0,
    DownloadSpeed := GoFloat.fin 0 }

/-- Four loss-free records with delays 10, 30, 60 and 90 ms. -/
def sampleAscending : PingDelaySet :=
  [probe 10 4 4, probe 30 4 4, probe 60 4 4, probe 90 4 4]

/-- A benchmarked record with the given download speed (bytes per second). -/
def bench (speed : ℚ) : CloudflareIPData :=
  { IP := "192.0.2.1", Sended := 4, Received := 4,
    Delay := 10 * Millisecond, recvRate := GoFloat.fin 0,
    DownloadSpeed := GoFloat.fin speed }

/-- Three benchmarked records with download speeds 6, 7 and 2. -/
def sampleSpeeds : DownloadSpeedSet := [bench 6, bench 7, bench 2]

/-- Three benchmarked records with download speeds 1, NaN and 2. -/
def sampleWithNaN : DownloadSpeedSet :=
  [bench 1, { bench 0 with DownloadSpeed := GoFloat.nan }, bench 2]

/-- A stand-in for the library functions of the row rendering. -/
def sampleStrconv : Strconv :=
  { Itoa := fun n => if n < 0 then "-" ++ Nat.repr n.natAbs else Nat.repr n.natAbs,
    FormatFloat := fun _ => "0.00",
    millis := fun d => GoFloat.fin (d / 1000000),
    mebi := fun x => x }

/-- Two records of 16777217 probes each: one answered once, in 20 ms, the
other never answered, carrying a delay of 10 ms. -/
def sampleManySent : PingDelaySet := [probe 20 16777217 1, probe 10 16777217 0]

/-- A ranked list of two records of four probes: no loss at 60 ms, then one
probe lost at 10 ms. -/
def sampleRanked : PingDelaySet := [probe 60 4 4, probe 10 4 3]

/-! ## Lemmas on `float32` rounding -/

namespace F32

/-- Rounding to nearest leaves an integer where it is. -/
theorem rne_intCast (n : ℤ) : rne (n : ℚ) = n := by
  simp [rne]

/-- Rounding to nearest, ties to even, is monotone. -/
theorem rne_mono {r t : ℚ} (h : r ≤ t) : rne r ≤ rne t := by
  have hf : ⌊r⌋ ≤ ⌊t⌋ := Int.floor_mono h
  unfold rne
  simp only []
  rcases lt_or_eq_of_le hf with hlt | heq
  · split_ifs <;> omega
  · have hd : r - ⌊r⌋ ≤ t - ⌊t⌋ := by rw [heq]; linarith
    split_ifs <;> first | omega | (exfalso; linarith)

/-- The rounded integer is within one half of the argument. -/
theorem abs_rne_sub_le (r : ℚ) : |(rne r : ℚ) - r| ≤ 1 / 2 := by
  have h1 : (⌊r⌋ : ℚ) ≤ r := Int.floor_le r
  have h2 : r < ⌊r⌋ + 1 := Int.lt_floor_add_one r
  unfold rne
  simp only []
  rw [abs_le]
  split_ifs <;> push_cast <;> constructor <;> linarith

/-- The logarithm is pinned down by a binade. -/
theorem log_eq_of_bounds {x : ℚ} {k : ℤ} (h1 : (2 : ℚ) ^ k ≤ x) (h2 : x < 2 ^ (k + 1)) :
    Int.log 2 x = k := by
  have hx : 0 < x := lt_of_lt_of_le (zpow_pos (by norm_num) k) h1
  have ha : k ≤ Int.log 2 x := by
    rw [← Int.zpow_le_iff_le_log (by norm_num) hx]
    simpa using h1
  have hb : Int.log 2 x < k + 1 := by
    rw [← Int.lt_zpow_iff_log_lt (by norm_num) hx]
    simpa using h2
  omega

/-- A positive rational lies in the binade of its logarithm. -/
theorem log_bounds {x : ℚ} (hx : 0 < x) :
    (2 : ℚ) ^ Int.log 2 x ≤ x ∧ x < 2 ^ (Int.log 2 x + 1) := by
  have h1 := Int.zpow_log_le_self (b := 2) (by norm_num) hx
  have h2 := Int.lt_zpow_succ_log_self (b := 2) (by norm_num) x
  simp only [Nat.cast_ofNat] at h1 h2
  exact ⟨h1, h2⟩

/-- Powers of two are positive. -/
theorem two_zpow_pos (k : ℤ) : (0 : ℚ) < 2 ^ k := zpow_pos (by norm_num) k

/-- Powers of two grow with the exponent. -/
theorem two_zpow_le {m n : ℤ} (h : m ≤ n) : (2 : ℚ) ^ m ≤ 2 ^ n :=
  zpow_le_zpow_right₀ (by norm_num) h

/-- Rounding keeps the sign of a nonnegative argument. -/
theorem roundQ_nonneg {x : ℚ} (hx : 0 ≤ x) : 0 ≤ roundQ x := by
  unfold roundQ
  apply mul_nonneg _ (two_zpow_pos _).le
  have h0 : (0 : ℚ) ≤ x / 2 ^ ulpExp x := div_nonneg hx (two_zpow_pos _).le
  have := rne_mono h0
  rw [show ((0 : ℚ)) = ((0 : ℤ) : ℚ) by simp, rne_intCast] at this
  exact_mod_cast this

/-- A value that is an integer multiple of its own unit in the last place is
representable: rounding returns it. -/
theorem roundQ_of_int_mul {x : ℚ} (n : ℤ) (h : x = n * 2 ^ ulpExp x) : roundQ x = x := by
  unfold roundQ
  have hq : x / 2 ^ ulpExp x = n := by
    rw [div_eq_iff (two_zpow_pos _).ne']
    exact h
  rw [hq, rne_intCast]
  exact h.symm

/-- The unit in the last place of a value in the binade `[2^k, 2^(k+1))`. -/
theorem ulpExp_of_bounds {x : ℚ} {k : ℤ} (h1 : (2 : ℚ) ^ k ≤ x) (h2 : x < 2 ^ (k + 1)) :
    ulpExp x = max (k - 23) (-149) := by
  have hx : 0 < x := lt_of_lt_of_le (two_zpow_pos k) h1
  rw [ulpExp, abs_of_pos hx, log_eq_of_bounds h1 h2]

/-- Upper bound: a positive value rounds to at most the top of its binade. -/
theorem roundQ_le_top {x : ℚ} (hx : 0 < x) : roundQ x ≤ 2 ^ (ulpExp x + 24) := by
  have hb := (log_bounds hx).2
  have hu : Int.log 2 x + 1 ≤ ulpExp x + 24 := by
    have : Int.log 2 x - 23 ≤ ulpExp x := by
      rw [ulpExp, abs_of_pos hx]; exact le_max_left _ _
    omega
  have hlt : x / 2 ^ ulpExp x ≤ ((2 ^ 24 : ℤ) : ℚ) := by
    rw [div_le_iff₀ (two_zpow_pos _)]
    push_cast
    calc x ≤ 2 ^ (Int.log 2 x + 1) := hb.le
      _ ≤ 2 ^ (ulpExp x + 24) := two_zpow_le hu
      _ = 2 ^ 24 * 2 ^ ulpExp x := by
        rw [zpow_add₀ (by norm_num : (2 : ℚ) ≠ 0), mul_comm]; norm_num
  have hr := rne_mono hlt
  rw [rne_intCast] at hr
  unfold roundQ
  calc (rne (x / 2 ^ ulpExp x) : ℚ) * 2 ^ ulpExp x
      ≤ ((2 ^ 24 : ℤ) : ℚ) * 2 ^ ulpExp x :=
        mul_le_mul_of_nonneg_right (by exact_mod_cast hr) (two_zpow_pos _).le
    _ = 2 ^ (ulpExp x + 24) := by
        rw [zpow_add₀ (by norm_num : (2 : ℚ) ≠ 0), mul_comm]; norm_num

/-- Lower bound: a positive normal value rounds to at least the bottom of its
binade. -/
theorem roundQ_ge_bottom {x : ℚ} (hx : 0 < x) (hn : -149 < ulpExp x) :
    2 ^ (ulpExp x + 23) ≤ roundQ x := by
  have hb := (log_bounds hx).1
  have hu : ulpExp x + 23 = Int.log 2 x := by
    have : ulpExp x = max (Int.log 2 x - 23) (-149) := by rw [ulpExp, abs_of_pos hx]
    omega
  have hge : ((2 ^ 23 : ℤ) : ℚ) ≤ x / 2 ^ ulpExp x := by
    rw [le_div_iff₀ (two_zpow_pos _)]
    push_cast
    calc (2 : ℚ) ^ 23 * 2 ^ ulpExp x = 2 ^ (ulpExp x + 23) := by
          rw [zpow_add₀ (by norm_num : (2 : ℚ) ≠ 0), mul_comm]; norm_num
      _ = 2 ^ Int.log 2 x := by rw [hu]
      _ ≤ x := hb
  have hr := rne_mono hge
  rw [rne_intCast] at hr
  unfold roundQ
  calc (2 : ℚ) ^ (ulpExp x + 23) = ((2 ^ 23 : ℤ) : ℚ) * 2 ^ ulpExp x := by
        rw [zpow_add₀ (by norm_num : (2 : ℚ) ≠ 0), mul_comm]; norm_num
    _ ≤ (rne (x / 2 ^ ulpExp x) : ℚ) * 2 ^ ulpExp x :=
        mul_le_mul_of_nonneg_right (by exact_mod_cast hr) (two_zpow_pos _).le

/-- The unit in the last place grows with the magnitude. -/
theorem ulpExp_mono {x y : ℚ} (hx : 0 < x) (h : x ≤ y) : ulpExp x ≤ ulpExp y := by
  have hy : 0 < y := lt_of_lt_of_le hx h
  have := Int.log_mono_right (b := 2) hx h
  rw [ulpExp, ulpExp, abs_of_pos hx, abs_of_pos hy]
  omega

/-- Rounding onto the binary32 grid is monotone on nonnegative values. -/
theorem roundQ_mono {x y : ℚ} (hx : 0 ≤ x) (h : x ≤ y) : roundQ x ≤ roundQ y := by
  rcases eq_or_lt_of_le hx with h0 | hpos
  · rw [← h0]
    have : roundQ 0 = 0 := by simp [roundQ, rne]
    rw [this]
    exact roundQ_nonneg (hx.trans h)
  · have hy : 0 < y := lt_of_lt_of_le hpos h
    rcases eq_or_lt_of_le (ulpExp_mono hpos h) with he | hlt
    · unfold roundQ
      rw [← he]
      apply mul_le_mul_of_nonneg_right _ (two_zpow_pos _).le
      have : x / 2 ^ ulpExp x ≤ y / 2 ^ ulpExp x :=
        div_le_div_of_nonneg_right h (two_zpow_pos _).le
      exact_mod_cast rne_mono this
    · have hn : -149 < ulpExp y := by
        have : -149 ≤ ulpExp x := le_max_right _ _
        omega
      calc roundQ x ≤ 2 ^ (ulpExp x + 24) := roundQ_le_top hpos
        _ ≤ 2 ^ (ulpExp y + 23) := two_zpow_le (by omega)
        _ ≤ roundQ y := roundQ_ge_bottom hy hn

/-- Zero is a `float32`. -/
theorem roundQ_zero : roundQ 0 = 0 := by simp [roundQ, rne]

/-- A value of the binade `[2^k, 2^(k+1))`, `k ≥ -126`, that is an integer
multiple of `2^(k-23)` is representable. -/
theorem roundQ_exact {x : ℚ} (k m : ℤ) (h1 : (2 : ℚ) ^ k ≤ x) (h2 : x < 2 ^ (k + 1))
    (hk : -126 ≤ k) (hm : x = m * 2 ^ (k - 23)) : roundQ x = x := by
  have hu : ulpExp x = k - 23 := by
    rw [ulpExp_of_bounds h1 h2]
    omega
  apply roundQ_of_int_mul m
  rw [hu]
  exact hm

/-- The logarithm of a positive integer below `2^n` is between `0` and `n - 1`. -/
theorem log_intCast_bounds {n : ℤ} {e : ℕ} (h1 : 1 ≤ n) (h2 : n < 2 ^ e) :
    0 ≤ Int.log 2 (n : ℚ) ∧ Int.log 2 (n : ℚ) < e := by
  have hpos : (0 : ℚ) < n := by exact_mod_cast (by omega : 0 < n)
  constructor
  · rw [← Int.zpow_le_iff_le_log (by norm_num) hpos]
    simp only [zpow_zero]
    exact_mod_cast h1
  · rw [← Int.lt_zpow_iff_log_lt (by norm_num) hpos]
    simp only [Nat.cast_ofNat, zpow_natCast]
    exact_mod_cast h2

/-- Integers up to `2^24` convert to `float32` without rounding. -/
theorem roundQ_intCast {n : ℤ} (h0 : 0 ≤ n) (h : n ≤ 2 ^ 24) : roundQ (n : ℚ) = n := by
  rcases eq_or_lt_of_le h0 with hz | hpos
  · rw [← hz]
    simpa using roundQ_zero
  rcases eq_or_lt_of_le h with he | hlt
  · rw [he]
    apply roundQ_exact 24 (2 ^ 23) <;> norm_num
  · have hlog := log_intCast_bounds (e := 24) (by omega) hlt
    have hposq : (0 : ℚ) < n := by exact_mod_cast hpos
    have hu : ulpExp (n : ℚ) ≤ 0 := by
      rw [ulpExp, abs_of_pos hposq]
      have := hlog.2
      omega
    apply roundQ_of_int_mul (n * 2 ^ (-ulpExp (n : ℚ)).toNat)
    have hz : (2 : ℚ) ^ ulpExp (n : ℚ) = ((2 : ℚ) ^ (-ulpExp (n : ℚ)).toNat)⁻¹ := by
      rw [← zpow_natCast, ← zpow_neg, Int.toNat_of_nonneg (by omega), neg_neg]
    rw [hz]
    push_cast
    rw [mul_assoc, mul_inv_cancel₀ (pow_ne_zero _ (by norm_num)), mul_one]

/-- A converted integer below `2^63` is finite, far from overflow. -/
theorem roundQ_intCast_le {n : ℤ} (h0 : 0 ≤ n) (h : n < 2 ^ 63) :
    0 ≤ roundQ (n : ℚ) ∧ roundQ (n : ℚ) ≤ 2 ^ 63 := by
  have hq : (0 : ℚ) ≤ n := by exact_mod_cast h0
  refine ⟨roundQ_nonneg hq, ?_⟩
  rcases eq_or_lt_of_le h0 with hz | hpos
  · rw [← hz]
    simp [roundQ_zero]
  · have hlog := log_intCast_bounds (e := 63) (by omega) h
    have hposq : (0 : ℚ) < n := by exact_mod_cast hpos
    have hu : ulpExp (n : ℚ) + 24 ≤ 63 := by
      rw [ulpExp, abs_of_pos hposq]
      have := hlog.2
      have := hlog.1
      omega
    calc roundQ (n : ℚ) ≤ 2 ^ (ulpExp (n : ℚ) + 24) := roundQ_le_top hposq
      _ ≤ 2 ^ (63 : ℤ) := two_zpow_le hu
      _ = 2 ^ 63 := by norm_num

/-- The largest `float32` below one. -/
theorem roundQ_pred_one : roundQ (1 - 1 / 2 ^ 24) = 1 - 1 / 2 ^ 24 := by
  apply roundQ_exact (-1) (2 ^ 24 - 1) <;> norm_num

/-- A ratio in `[0, 1]` rounds into `[0, 1]`. -/
theorem roundQ_unit {q : ℚ} (h0 : 0 ≤ q) (h1 : q ≤ 1) : 0 ≤ roundQ q ∧ roundQ q ≤ 1 := by
  refine ⟨roundQ_nonneg h0, ?_⟩
  have := roundQ_mono h0 h1
  rwa [show roundQ 1 = 1 by simpa using roundQ_intCast (n := 1) (by norm_num) (by norm_num)]
    at this

end F32

/-! ## Lemmas on the filter loop -/

/-- The slice built so far is a prefix of the result of the loop. -/
theorem filterLoop_append (hi lo : Int) (s data : PingDelaySet) :
    PingDelaySet.filterLoop hi lo data s = data ++ PingDelaySet.filterLoop hi lo [] s := by
  induction s generalizing data with
  | nil => simp [PingDelaySet.filterLoop]
  | cons v rest ih =>
    simp only [PingDelaySet.filterLoop]
    split
    · simp
    · split
      · exact ih data
      · rw [ih (data ++ [v]), ih ([] ++ [v])]
        simp

/-- One step of the loop, without the accumulator. -/
theorem filterLoop_cons (hi lo : Int) (v : CloudflareIPData) (rest : PingDelaySet) :
    PingDelaySet.filterLoop hi lo [] (v :: rest) =
      if v.Delay > hi then []
      else if v.Delay < lo then PingDelaySet.filterLoop hi lo [] rest
      else v :: PingDelaySet.filterLoop hi lo [] rest := by
  simp only [PingDelaySet.filterLoop]
  split
  · rfl
  · split
    · rfl
    · rw [filterLoop_append]
      simp

/-- Everything the loop keeps comes from the input and lies in the window. -/
theorem filterLoop_mem (hi lo : Int) (s : PingDelaySet) (v : CloudflareIPData)
    (hv : v ∈ PingDelaySet.filterLoop hi lo [] s) :
    v ∈ s ∧ lo ≤ v.Delay ∧ v.Delay ≤ hi := by
  induction s with
  | nil => simp [PingDelaySet.filterLoop] at hv
  | cons w rest ih =>
    rw [filterLoop_cons] at hv
    split at hv
    · simp at hv
    · split at hv
      · exact ⟨List.mem_cons_of_mem _ (ih hv).1, (ih hv).2⟩
      · rcases List.mem_cons.1 hv with h | h
        · subst h
          exact ⟨List.mem_cons_self _ _, by omega, by omega⟩
        · exact ⟨List.mem_cons_of_mem _ (ih h).1, (ih h).2⟩

/-- The loop keeps a list whose records all lie in the window. -/
theorem filterLoop_of_forall (hi lo : Int) (s : PingDelaySet)
    (h : ∀ v ∈ s, lo ≤ v.Delay ∧ v.Delay ≤ hi) :
    PingDelaySet.filterLoop hi lo [] s = s := by
  induction s with
  | nil => simp [PingDelaySet.filterLoop]
  | cons w rest ih =>
    have hw := h w (List.mem_cons_self _ _)
    rw [filterLoop_cons, if_neg (by omega), if_neg (by omega),
      ih (fun v hv => h v (List.mem_cons_of_mem _ hv))]

/-- A list the loop returns whole has all its records in the window. -/
theorem filterLoop_eq_self (hi lo : Int) (s : PingDelaySet)
    (h : PingDelaySet.filterLoop hi lo [] s = s) :
    ∀ v ∈ s, lo ≤ v.Delay ∧ v.Delay ≤ hi := by
  intro v hv
  rw [← h] at hv
  exact (filterLoop_mem hi lo s v hv).2

/-- On a list in ascending order of delay the loop is the window filter. -/
theorem filterLoop_sorted (hi lo : Int) (s : PingDelaySet)
    (hs : s.Pairwise (fun a b => a.Delay ≤ b.Delay)) :
    PingDelaySet.filterLoop hi lo [] s =
      s.filter (fun v => decide (lo ≤ v.Delay ∧ v.Delay ≤ hi)) := by
  induction s with
  | nil => simp [PingDelaySet.filterLoop]
  | cons w rest ih =>
    rw [List.pairwise_cons] at hs
    rw [filterLoop_cons]
    split
    · rename_i hw
      symm
      rw [List.filter_eq_nil_iff]
      intro v hv
      rcases List.mem_cons.1 hv with h | h
      · subst h
        simp only [decide_eq_true_eq]
        omega
      · have := hs.1 v h
        simp only [decide_eq_true_eq]
        omega
    · split
      · rw [ih hs.2, List.filter_cons_of_neg]
        simp only [decide_eq_true_eq]
        omega
      · rw [ih hs.2, List.filter_cons_of_pos]
        simp only [decide_eq_true_eq]
        omega

/-- The guard of `FilterDelay` passes exactly for bounds within the default
range. -/
theorem FilterDelay_in_range (hi lo : Int) (s : PingDelaySet)
    (hlo : 0 ≤ lo) (hhi : hi ≤ 9999 * Millisecond) :
    PingDelaySet.FilterDelay hi lo s = PingDelaySet.filterLoop hi lo [] s := by
  unfold PingDelaySet.FilterDelay
  rw [if_neg]
  simp only [maxDelay, minDelay, Bool.or_eq_true, decide_eq_true_eq]
  omega

/-- With a bound outside the default range `FilterDelay` returns its input. -/
theorem FilterDelay_out_of_range (hi lo : Int) (s : PingDelaySet)
    (h : 9999 * Millisecond < hi ∨ lo < 0) :
    PingDelaySet.FilterDelay hi lo s = s := by
  unfold PingDelaySet.FilterDelay
  rw [if_pos]
  simp only [maxDelay, minDelay, Bool.or_eq_true, decide_eq_true_eq]
  omega

/-! ## The delay filter: claims -/

/-- C1. For bounds with `0 ≤ InputMinDelay` and `InputMaxDelay ≤ 9999ms` and a
list in ascending order of delay, `FilterDelay` returns exactly the records
with `InputMinDelay ≤ Delay ≤ InputMaxDelay`, in their input order. -/
theorem FilterDelay_ascending (InputMaxDelay InputMinDelay : Int) (s : PingDelaySet)
    (hmin : 0 ≤ InputMinDelay) (hmax : InputMaxDelay ≤ 9999 * Millisecond)
    (hs : s.Pairwise (fun a b => a.Delay ≤ b.Delay)) :
    PingDelaySet.FilterDelay InputMaxDelay InputMinDelay s =
      s.filter (fun v => decide (InputMinDelay ≤ v.Delay ∧ v.Delay ≤ InputMaxDelay)) := by
  rw [FilterDelay_in_range _ _ _ hmin hmax, filterLoop_sorted _ _ _ hs]

/-- C1, on the delays 10, 30, 60, 90 ms with the window from 0 to 50 ms: the
output is the records of 10 and 30 ms. -/
theorem FilterDelay_ascending_witness :
    PingDelaySet.FilterDelay (50 * Millisecond) 0 sampleAscending =
      [probe 10 4 4, probe 30 4 4] := by
  rw [FilterDelay_ascending (50 * Millisecond) 0 sampleAscending (by decide) (by decide)
    (by decide)]
  decide

/-- C2, as stated, fails: with both bounds at their defaults a record whose
delay is 10000 ms is dropped. -/
theorem FilterDelay_default_not_identity :
    PingDelaySet.FilterDelay maxDelay minDelay [probe 10000 4 4] ≠ [probe 10000 4 4] := by
  decide

/-- C2, amended. With both bounds at their defaults `FilterDelay` returns its
input unchanged exactly when every record has a delay from 0 to 9999 ms. -/
theorem FilterDelay_default_identity_iff (s : PingDelaySet) :
    PingDelaySet.FilterDelay maxDelay minDelay s = s ↔
      ∀ v ∈ s, 0 ≤ v.Delay ∧ v.Delay ≤ 9999 * Millisecond := by
  have hrange : PingDelaySet.FilterDelay maxDelay minDelay s =
      PingDelaySet.filterLoop maxDelay minDelay [] s :=
    FilterDelay_in_range maxDelay minDelay s (by decide) (by decide)
  rw [hrange]
  constructor
  · intro h v hv
    have := filterLoop_eq_self _ _ _ h v hv
    simpa [maxDelay, minDelay] using this
  · intro h
    apply filterLoop_of_forall
    intro v hv
    simpa [maxDelay, minDelay] using h v hv

/-- C7, as stated, fails: with the window from 0 to 50 ms a record with
`Received = 0` and a delay inside the window is kept. -/
theorem FilterDelay_keeps_unanswered :
    probe 0 4 0 ∈ PingDelaySet.FilterDelay (50 * Millisecond) 0 [probe 0 4 0] ∧
      (probe 0 4 0).Received = 0 ∧
      ((50 * Millisecond, (0 : Int)) ≠ (maxDelay, minDelay)) := by
  decide

/-- C7, amended. For bounds within the default range, a record with
`Received = 0` whose delay lies outside the window is not in the output of
`FilterDelay`. -/
theorem FilterDelay_drops_unanswered_outside (InputMaxDelay InputMinDelay : Int)
    (s : PingDelaySet) (v : CloudflareIPData)
    (hmin : 0 ≤ InputMinDelay) (hmax : InputMaxDelay ≤ 9999 * Millisecond)
    (_hrecv : v.Received = 0)
    (hout : v.Delay < InputMinDelay ∨ InputMaxDelay < v.Delay) :
    v ∉ PingDelaySet.FilterDelay InputMaxDelay InputMinDelay s := by
  rw [FilterDelay_in_range _ _ _ hmin hmax]
  intro hv
  have := (filterLoop_mem _ _ _ _ hv).2
  omega

/-- C7, amended, on a record with `Received = 0` and delay 0 under the window
from 40 to 200 ms. -/
theorem FilterDelay_drops_unanswered_outside_witness :
    (probe 0 4 0).Received = 0 ∧
      probe 0 4 0 ∉ PingDelaySet.FilterDelay (200 * Millisecond) (40 * Millisecond)
        [probe 50 4 4, probe 0 4 0] :=
  ⟨rfl, FilterDelay_drops_unanswered_outside (200 * Millisecond) (40 * Millisecond)
    [probe 50 4 4, probe 0 4 0] (probe 0 4 0) (by decide) (by decide) rfl
    (Or.inl (by decide))⟩

/-- C8, at its failing input. With the lower limit at 40 ms (`-tll 40`) and
the upper limit at 10000 ms (`-tl 10000`), the guard at the head of
`FilterDelay` returns the input whole: the record of 10 ms, below the lower
limit, is in the output. -/
theorem FilterDelay_lower_limit_ignored :
    (0 : Int) ≤ 40 * Millisecond ∧
    PingDelaySet.FilterDelay (10000 * Millisecond) (40 * Millisecond) [probe 10 4 4] =
      [probe 10 4 4] ∧
    (probe 10 4 4).Delay < 40 * Millisecond ∧
    ∃ v ∈ PingDelaySet.FilterDelay (10000 * Millisecond) (40 * Millisecond) [probe 10 4 4],
      v.Delay < 40 * Millisecond := by
  decide

/-- C9. `FilterDelay` is idempotent: for every setting of the two bounds and
every input list, filtering the output again returns the same list. -/
theorem FilterDelay_idempotent (InputMaxDelay InputMinDelay : Int) (s : PingDelaySet) :
    PingDelaySet.FilterDelay InputMaxDelay InputMinDelay
        (PingDelaySet.FilterDelay InputMaxDelay InputMinDelay s) =
      PingDelaySet.FilterDelay InputMaxDelay InputMinDelay s := by
  by_cases h : 9999 * Millisecond < InputMaxDelay ∨ InputMinDelay < 0
  · rw [FilterDelay_out_of_range _ _ _ h, FilterDelay_out_of_range _ _ _ h]
  · have hmin : 0 ≤ InputMinDelay := by omega
    have hmax : InputMaxDelay ≤ 9999 * Millisecond := by omega
    rw [FilterDelay_in_range _ _ _ hmin hmax, FilterDelay_in_range _ _ _ hmin hmax]
    apply filterLoop_of_forall
    intro v hv
    exact (filterLoop_mem _ _ _ _ hv).2

/-! ## The table printer -/

/-- A rendered row has six cells, the first being the address. -/
theorem convertToString_getElem? (lib : Strconv) (s : List CloudflareIPData) (i : Nat)
    (h : i < s.length) :
    (convertToString lib s)[i]? = some (CloudflareIPData.toString lib s[i]) := by
  simp [convertToString, List.getElem?_map, List.getElem?_eq_getElem h]

/-- The first loop of `Print` stays within the slice and finds whether one of
the rows it visits has an address longer than 15 bytes. -/
theorem scanWide_eq (lib : Strconv) (s : List CloudflareIPData) :
    ∀ (todo i : Nat), i + todo ≤ s.length →
      DownloadSpeedSet.scanWide (convertToString lib s) i todo =
        some (((s.drop i).take todo).any (fun cf => decide (cf.IP.utf8ByteSize > 15))) := by
  intro todo
  induction todo with
  | zero => intro i _; simp [DownloadSpeedSet.scanWide]
  | succ n ih =>
    intro i hi
    have hlt : i < s.length := by omega
    rw [DownloadSpeedSet.scanWide, convertToString_getElem? lib s i hlt,
      List.drop_eq_getElem_cons hlt]
    simp only [Option.bind_eq_bind, Option.some_bind, CloudflareIPData.toString,
      List.getElem?_cons_zero, List.take_succ_cons, List.any_cons]
    by_cases hw : (s[i]).IP.utf8ByteSize > 15
    · simp [hw]
    · rw [if_neg hw, ih (i + 1) (by omega)]
      simp [hw]

/-- The second loop of `Print` stays within the slice and writes the rows it
visits, in order. -/
theorem printRows_eq (lib : Strconv) (s : List CloudflareIPData) (wide : Bool) :
    ∀ (todo i : Nat), i + todo ≤ s.length →
      DownloadSpeedSet.printRows (convertToString lib s) wide i todo =
        some (((s.drop i).take todo).map
          (fun cf => Line.row wide (CloudflareIPData.toString lib cf))) := by
  intro todo
  induction todo with
  | zero => intro i _; simp [DownloadSpeedSet.printRows]
  | succ n ih =>
    intro i hi
    have hlt : i < s.length := by omega
    have hd : s.drop i = s[i] :: s.drop (i + 1) := List.drop_eq_getElem_cons hlt
    rw [hd, List.take_succ_cons, List.map_cons, DownloadSpeedSet.printRows,
      convertToString_getElem? lib s i hlt, ih (i + 1) (by omega)]
    simp [CloudflareIPData.toString]

/-- C10. For a non-empty result list and `PrintNum > 0`, `Print` completes
without an index out of range, sets `PrintNum` to `min(PrintNum, len(s))` and
writes, after the header, exactly the first `min(PrintNum, len(s))` rows of
`s` in order (then the note on the result file, when one is written); with
`PrintNum = 0` it writes nothing, whatever the list. -/
theorem Print_clamped (lib : Strconv) (Output : String) (s : DownloadSpeedSet) :
    (s ≠ [] → ∀ PrintNum : Int, 0 < PrintNum →
      DownloadSpeedSet.Print lib PrintNum Output s =
        some (min PrintNum s.length,
          Line.head ((s.take (min PrintNum s.length).toNat).any
              (fun cf => decide (cf.IP.utf8ByteSize > 15))) ::
            (s.take (min PrintNum s.length).toNat).map
              (fun cf => Line.row
                ((s.take (min PrintNum s.length).toNat).any
                  (fun cf => decide (cf.IP.utf8ByteSize > 15)))
                (CloudflareIPData.toString lib cf)) ++
            (if noOutput Output then [] else [Line.written Output]))) ∧
    DownloadSpeedSet.Print lib 0 Output s = some (0, []) := by
  constructor
  · intro hs PrintNum hp
    have hlen : 0 < s.length := List.length_pos.2 hs
    have hne : NoPrintResult PrintNum = false := by
      simp only [NoPrintResult, beq_eq_false_iff_ne, ne_eq]
      omega
    have hlen2 : ¬ DownloadSpeedSet.Len s ≤ 0 := by
      simp only [DownloadSpeedSet.Len]
      omega
    have hcl : (convertToString lib s).length = s.length := by
      simp [convertToString]
    have hmin : (if ((convertToString lib s).length : Int) < PrintNum
        then ((convertToString lib s).length : Int) else PrintNum) = min PrintNum s.length := by
      rw [hcl]
      split <;> omega
    have hbound : 0 + (min PrintNum (s.length : Int)).toNat ≤ s.length := by omega
    unfold DownloadSpeedSet.Print
    rw [hne]
    simp only [Bool.false_eq_true, if_false, if_neg hlen2, hmin]
    rw [scanWide_eq lib s _ 0 hbound]
    simp only [Option.bind_eq_bind, Option.some_bind, List.drop_zero]
    rw [printRows_eq lib s _ _ 0 hbound]
    simp only [Option.some_bind, List.drop_zero]
    cases noOutput Output <;> simp
  · simp [DownloadSpeedSet.Print, NoPrintResult]

/-- C10, on three results with `PrintNum = 10`: the three rows are written and
`PrintNum` becomes 3. -/
theorem Print_clamped_witness :
    sampleSpeeds ≠ [] ∧
    DownloadSpeedSet.Print sampleStrconv 10 "result.csv" sampleSpeeds =
      some (3, [Line.head false,
        Line.row false ["192.0.2.1", "4", "4", "0.00", "0.00", "0.00"],
        Line.row false ["192.0.2.1", "4", "4", "0.00", "0.00", "0.00"],
        Line.row false ["192.0.2.1", "4", "4", "0.00", "0.00", "0.00"],
        Line.written "result.csv"]) := by
  refine ⟨by decide, ?_⟩
  rw [(Print_clamped sampleStrconv "result.csv" sampleSpeeds).1 (by decide) 10 (by decide)]
  decide

/-! ## Ordering by download speed -/

/-- Among values that are not NaN, "not greater" is "less or equal". -/
theorem GoFloat.le_of_not_gt (a b : GoFloat) (ha : a.isNaN = false) (hb : b.isNaN = false)
    (h : GoFloat.gt a b = false) : GoFloat.le a b = true := by
  cases a <;> cases b <;>
    simp_all [GoFloat.gt, GoFloat.lt, GoFloat.le, GoFloat.eq, GoFloat.isNaN]
  · exact le_iff_lt_or_eq.1 h
  · rename_i s t
    cases s <;> cases t <;> simp_all

/-- The float order `<=` is transitive. -/
theorem GoFloat.le_trans (a b c : GoFloat) (hab : GoFloat.le a b = true)
    (hbc : GoFloat.le b c = true) : GoFloat.le a c = true := by
  cases a <;> cases b <;> cases c <;>
    simp_all [GoFloat.lt, GoFloat.le, GoFloat.eq]
  · rename_i x y z
    rcases hab with h | h <;> rcases hbc with h2 | h2
    · exact Or.inl (lt_trans h h2)
    · exact Or.inl (h2 ▸ h)
    · exact Or.inl (h ▸ h2)
    · exact Or.inr (h.trans h2)
  all_goals
    rename_i s t
    cases s <;> cases t <;> simp_all

/-- What `sort.IsSorted` checks, pair by pair. -/
theorem IsSorted_cons_cons (a b : CloudflareIPData) (rest : DownloadSpeedSet) :
    DownloadSpeedSet.IsSorted (a :: b :: rest) =
      (!GoFloat.gt b.DownloadSpeed a.DownloadSpeed && DownloadSpeedSet.IsSorted (b :: rest)) := by
  simp only [DownloadSpeedSet.IsSorted, List.length_cons, Nat.add_sub_cancel]
  rw [List.range_succ_eq_map, List.all_cons, List.all_map]
  congr 1
  · simp [DownloadSpeedSet.Less]
  · congr 1
    funext k
    simp [Function.comp, DownloadSpeedSet.Less]

/-- A list that `sort.IsSorted` accepts under `DownloadSpeedSet.Less`, and
that holds no NaN, is in non-increasing order of download speed. -/
theorem IsSorted_pairwise (s : DownloadSpeedSet)
    (hsorted : DownloadSpeedSet.IsSorted s = true)
    (hnum : ∀ v ∈ s, v.DownloadSpeed.isNaN = false) :
    s.Pairwise (fun a b => GoFloat.le b.DownloadSpeed a.DownloadSpeed = true) := by
  induction s with
  | nil => exact List.Pairwise.nil
  | cons a rest ih =>
    cases rest with
    | nil => simp
    | cons b rest =>
      rw [IsSorted_cons_cons, Bool.and_eq_true, Bool.not_eq_true'] at hsorted
      have hrest := ih hsorted.2 (fun v hv => hnum v (List.mem_cons_of_mem _ hv))
      have hba : GoFloat.le b.DownloadSpeed a.DownloadSpeed = true :=
        GoFloat.le_of_not_gt _ _ (hnum b (by simp)) (hnum a (by simp)) hsorted.1
      refine List.Pairwise.cons ?_ hrest
      intro c hc
      rcases List.mem_cons.1 hc with h | h
      · subst h
        exact hba
      · exact GoFloat.le_trans _ _ _ ((List.pairwise_cons.1 hrest).1 c h) hba

/-- C5, as stated, fails: the list of speeds 1, NaN, 2 is sorted with respect
to `Less` (`sort.IsSorted` accepts it, no record being `Less` than the one
before it), yet it is not in non-increasing order: the last record has a
strictly greater speed than the first. -/
theorem IsSorted_with_NaN_not_descending :
    DownloadSpeedSet.IsSorted sampleWithNaN = true ∧
    DownloadSpeedSet.Less sampleWithNaN 2 0 = some true ∧
    ¬ sampleWithNaN.Pairwise
      (fun a b => GoFloat.le b.DownloadSpeed a.DownloadSpeed = true) := by
  decide

/-- C5, amended. `DownloadSpeedSet.Less(i, j)` holds exactly when record `i`
has a strictly greater download speed than record `j`; hence every list with
no NaN download speed that is sorted with respect to it is in non-increasing
order of download speed. -/
theorem DownloadSpeedSet_Less_descending (s : DownloadSpeedSet) :
    (∀ (i j : Nat) (a b : CloudflareIPData), s[i]? = some a → s[j]? = some b →
      (DownloadSpeedSet.Less s i j = some true ↔
        GoFloat.lt b.DownloadSpeed a.DownloadSpeed = true) ∧
      (∀ x y : ℚ, a.DownloadSpeed = GoFloat.fin x → b.DownloadSpeed = GoFloat.fin y →
        DownloadSpeedSet.Less s i j = some (decide (y < x)))) ∧
    (DownloadSpeedSet.IsSorted s = true → (∀ v ∈ s, v.DownloadSpeed.isNaN = false) →
      s.Pairwise (fun a b => GoFloat.le b.DownloadSpeed a.DownloadSpeed = true)) := by
  refine ⟨?_, IsSorted_pairwise s⟩
  intro i j a b ha hb
  constructor
  · simp [DownloadSpeedSet.Less, ha, hb, GoFloat.gt]
  · intro x y hx hy
    simp [DownloadSpeedSet.Less, ha, hb, GoFloat.gt, GoFloat.lt, hx, hy]

/-- C5, amended, on the speeds 6, 7, 2: the one arrangement of the three records that is
sorted with respect to `Less` is 7, 6, 2. -/
theorem DownloadSpeedSet_Less_descending_witness :
    DownloadSpeedSet.IsSorted [bench 7, bench 6, bench 2] = true ∧
    List.Pairwise (fun a b => GoFloat.le b.DownloadSpeed a.DownloadSpeed = true)
      [bench 7, bench 6, bench 2] ∧
    ∀ p : DownloadSpeedSet, p.Perm sampleSpeeds → DownloadSpeedSet.IsSorted p = true →
      p = [bench 7, bench 6, bench 2] := by
  refine ⟨by decide,
    (DownloadSpeedSet_Less_descending [bench 7, bench 6, bench 2]).2 (by decide) (by decide), ?_⟩
  intro p hp hsorted
  have hnum : ∀ v ∈ p, v.DownloadSpeed.isNaN = false := by
    intro v hv
    have hv2 : v ∈ sampleSpeeds := hp.mem_iff.1 hv
    simp only [sampleSpeeds, List.mem_cons, List.mem_singleton, List.not_mem_nil, or_false] at hv2
    rcases hv2 with h | h | h <;> subst h <;> rfl
  have hdesc := (DownloadSpeedSet_Less_descending p).2 hsorted hnum
  have hlen : p.length = 3 := hp.length_eq
  match p, hlen with
  | [x, y, z], _ =>
    have hx : x ∈ sampleSpeeds := hp.mem_iff.1 (by simp)
    have hy : y ∈ sampleSpeeds := hp.mem_iff.1 (by simp)
    have hz : z ∈ sampleSpeeds := hp.mem_iff.1 (by simp)
    simp only [sampleSpeeds, List.mem_cons, List.mem_singleton, List.not_mem_nil,
      or_false] at hx hy hz
    rcases hx with h | h | h <;> rcases hy with h2 | h2 | h2 <;>
      rcases hz with h3 | h3 | h3 <;> subst h <;> subst h2 <;> subst h3 <;>
      first
      | rfl
      | exact absurd hdesc (by decide)
      | exact absurd hp (by decide)

/-! ## The loss rate -/

/-- A rounded value below the overflow threshold is a finite `float32`. -/
theorem F32.ofRat_fin {x : ℚ} (h : |F32.roundQ x| < 2 ^ 128) :
    F32.ofRat x = GoFloat.fin (F32.roundQ x) := by
  unfold F32.ofRat
  simp only []
  rw [if_neg (not_le.2 h)]

/-- Converting a nonnegative Go `int` gives a finite value. -/
theorem F32.ofInt_fin {n : ℤ} (h0 : 0 ≤ n) (h : n < 2 ^ 63) :
    F32.ofInt n = GoFloat.fin (F32.roundQ n) := by
  have hb := F32.roundQ_intCast_le h0 h
  apply F32.ofRat_fin
  rw [abs_of_nonneg hb.1]
  exact lt_of_le_of_lt hb.2 (by norm_num)

/-- The `float32` quotient of two converted counts `0 ≤ a ≤ b`, `b ≥ 1`: a
finite value between 0 and 1, the rounded quotient of the rounded counts. -/
theorem F32.div_counts {a b : ℤ} (ha : 0 ≤ a) (hab : a ≤ b) (hb1 : 1 ≤ b) (hb : b < 2 ^ 63) :
    F32.div (F32.ofInt a) (F32.ofInt b) =
        GoFloat.fin (F32.roundQ (F32.roundQ a / F32.roundQ b)) ∧
      0 ≤ F32.roundQ (F32.roundQ a / F32.roundQ b) ∧
      F32.roundQ (F32.roundQ a / F32.roundQ b) ≤ 1 := by
  have haq : (0 : ℚ) ≤ a := by exact_mod_cast ha
  have habq : (a : ℚ) ≤ b := by exact_mod_cast hab
  have hb1q : ((1 : ℤ) : ℚ) ≤ b := by exact_mod_cast hb1
  have hfa : 0 ≤ F32.roundQ a := F32.roundQ_nonneg haq
  have hfab : F32.roundQ a ≤ F32.roundQ b := F32.roundQ_mono haq habq
  have hfb : 1 ≤ F32.roundQ b := by
    have h1 := F32.roundQ_mono (by norm_num) hb1q
    rwa [F32.roundQ_intCast (by norm_num) (by norm_num)] at h1
  have hfb0 : F32.roundQ b ≠ 0 := by
    intro h0
    rw [h0] at hfb
    norm_num at hfb
  have hq0 : 0 ≤ F32.roundQ a / F32.roundQ b := div_nonneg hfa (by linarith)
  have hq1 : F32.roundQ a / F32.roundQ b ≤ 1 := by
    rw [div_le_one (by linarith)]
    exact hfab
  have hu := F32.roundQ_unit hq0 hq1
  refine ⟨?_, hu⟩
  rw [F32.ofInt_fin ha (by omega), F32.ofInt_fin (by omega) hb]
  simp only [F32.div, if_neg hfb0]
  apply F32.ofRat_fin
  rw [abs_of_nonneg hu.1]
  exact lt_of_le_of_lt hu.2 (by norm_num)

/-- The subtraction `Sended - Received` does not wrap when
`0 ≤ Received ≤ Sended`. -/
theorem wrapInt64_sub {S R : ℤ} (hR0 : 0 ≤ R) (hR : R ≤ S) (hS : S < 2 ^ 63) :
    wrapInt64 (S - R) = S - R := by
  unfold wrapInt64
  omega

/-- What a call of `getRecvRate` returns and leaves behind, for a record whose
cache is unset or holds the value `r` that the computation yields. -/
theorem getRecvRate_of_cache (c : CloudflareIPData) (r : GoFloat)
    (hr : c.computedRate = r) (hc : c.recvRate = GoFloat.fin 0 ∨ c.recvRate = r) :
    c.getRecvRate.1 = r ∧
      c.getRecvRate.2.toPingData = c.toPingData ∧
      c.getRecvRate.2.DownloadSpeed = c.DownloadSpeed ∧
      (c.getRecvRate.2.recvRate = GoFloat.fin 0 ∨ c.getRecvRate.2.recvRate = r) := by
  unfold CloudflareIPData.getRecvRate
  unfold CloudflareIPData.computedRate at hr
  split
  · simp [hr]
  · rename_i hne
    rcases hc with h | h
    · rw [h] at hne
      simp [GoFloat.eq] at hne
    · exact ⟨h, rfl, rfl, Or.inr h⟩

/-- The record after any number of calls of `getRecvRate` differs from the
first one in the cached rate at most, which is unset or the computed rate. -/
theorem afterCalls_inv (r : GoFloat) :
    ∀ (n : Nat) (c : CloudflareIPData), c.computedRate = r →
      (c.recvRate = GoFloat.fin 0 ∨ c.recvRate = r) →
      (c.afterCalls n).toPingData = c.toPingData ∧
        (c.afterCalls n).DownloadSpeed = c.DownloadSpeed ∧
        ((c.afterCalls n).recvRate = GoFloat.fin 0 ∨ (c.afterCalls n).recvRate = r) := by
  intro n
  induction n with
  | zero => intro c _ hc; exact ⟨rfl, rfl, hc⟩
  | succ n ih =>
    intro c hr hc
    have hstep := getRecvRate_of_cache c r hr hc
    have hr2 : c.getRecvRate.2.computedRate = r := by
      rw [← hr]
      simp only [CloudflareIPData.computedRate]
      rw [hstep.2.1]
    have := ih c.getRecvRate.2 hr2 hstep.2.2.2
    rw [CloudflareIPData.afterCalls]
    exact ⟨this.1.trans hstep.2.1, this.2.1.trans hstep.2.2.1, this.2.2⟩

/-- Rounding a positive normal value moves it by at most `2^-24` of itself. -/
theorem F32.abs_roundQ_sub_le {x : ℚ} (hx : 0 < x) (hn : -149 < F32.ulpExp x) :
    |F32.roundQ x - x| ≤ x / 2 ^ 24 := by
  have hb := (F32.log_bounds hx).1
  have hu : F32.ulpExp x + 23 = Int.log 2 x := by
    have : F32.ulpExp x = max (Int.log 2 x - 23) (-149) := by rw [F32.ulpExp, abs_of_pos hx]
    omega
  have hpos := F32.two_zpow_pos (F32.ulpExp x)
  have hr := F32.abs_rne_sub_le (x / 2 ^ F32.ulpExp x)
  have hmul : |F32.roundQ x - x| = |(F32.rne (x / 2 ^ F32.ulpExp x) : ℚ) - x / 2 ^ F32.ulpExp x| *
      2 ^ F32.ulpExp x := by
    rw [← abs_of_pos hpos, ← abs_mul, abs_of_pos hpos, sub_mul,
      div_mul_cancel₀ _ (ne_of_gt hpos)]
    rfl
  have hpow : (2 : ℚ) ^ F32.ulpExp x * 2 ^ 23 ≤ x := by
    calc (2 : ℚ) ^ F32.ulpExp x * 2 ^ 23 = 2 ^ (F32.ulpExp x + 23) := by
          rw [zpow_add₀ (by norm_num : (2 : ℚ) ≠ 0)]; norm_num
      _ = 2 ^ Int.log 2 x := by rw [hu]
      _ ≤ x := hb
  rw [hmul, le_div_iff₀ (by norm_num)]
  calc |(F32.rne (x / 2 ^ F32.ulpExp x) : ℚ) - x / 2 ^ F32.ulpExp x| * 2 ^ F32.ulpExp x * 2 ^ 24
      ≤ 1 / 2 * 2 ^ F32.ulpExp x * 2 ^ 24 := by
        apply mul_le_mul_of_nonneg_right _ (by norm_num)
        exact mul_le_mul_of_nonneg_right hr hpos.le
    _ = 2 ^ F32.ulpExp x * 2 ^ 23 := by ring
    _ ≤ x := hpow

/-- A positive integer is a normal `float32` value. -/
theorem F32.ulpExp_intCast {n : ℤ} (h1 : 1 ≤ n) (h : n < 2 ^ 63) :
    -149 < F32.ulpExp (n : ℚ) := by
  have hlog := F32.log_intCast_bounds (e := 63) h1 h
  have hpos : (0 : ℚ) < n := by exact_mod_cast (by omega : 0 < n)
  have := hlog.1
  rw [F32.ulpExp, abs_of_pos hpos]
  omega

/-- The computed rate is within `2^-22` of the exact quotient of the counts. -/
theorem F32.rate_error {a b : ℤ} (ha : 0 ≤ a) (hab : a ≤ b) (hb1 : 1 ≤ b) (hb : b < 2 ^ 63) :
    |F32.roundQ (F32.roundQ a / F32.roundQ b) - (a : ℚ) / b| ≤ 1 / 2 ^ 22 := by
  rcases eq_or_lt_of_le ha with hz | hapos
  · rw [← hz]
    simp [F32.roundQ_zero]
  have ha1 : 1 ≤ a := by omega
  have hA1 : ((1 : ℤ) : ℚ) ≤ a := by exact_mod_cast ha1
  have hB1 : ((1 : ℤ) : ℚ) ≤ b := by exact_mod_cast hb1
  have hAB : (a : ℚ) ≤ b := by exact_mod_cast hab
  have hA0 : (0 : ℚ) < a := by linarith [hA1, (by norm_num : ((1 : ℤ) : ℚ) = 1)]
  have hB0 : (0 : ℚ) < b := lt_of_lt_of_le hA0 hAB
  have h1 : F32.roundQ ((1 : ℤ) : ℚ) = 1 := by
    simpa using F32.roundQ_intCast (n := 1) (by norm_num) (by norm_num)
  have hfa1 : 1 ≤ F32.roundQ a := by
    have := F32.roundQ_mono (by norm_num) hA1
    rwa [h1] at this
  have hfb1 : 1 ≤ F32.roundQ b := by
    have := F32.roundQ_mono (by norm_num) hB1
    rwa [h1] at this
  have hfab : F32.roundQ a ≤ F32.roundQ b := F32.roundQ_mono hA0.le hAB
  have hfb63 : F32.roundQ b ≤ 2 ^ 63 := (F32.roundQ_intCast_le (by omega) hb).2
  have ea := abs_le.1 (F32.abs_roundQ_sub_le hA0 (F32.ulpExp_intCast ha1 (by omega)))
  have eb := abs_le.1 (F32.abs_roundQ_sub_le hB0 (F32.ulpExp_intCast hb1 hb))
  have hfb0 : 0 < F32.roundQ b := by linarith
  have hq0 : 0 < F32.roundQ a / F32.roundQ b := div_pos (by linarith) hfb0
  have hq1 : F32.roundQ a / F32.roundQ b ≤ 1 := by
    rw [div_le_one hfb0]
    exact hfab
  have hqlow : (2 : ℚ) ^ (-63 : ℤ) ≤ F32.roundQ a / F32.roundQ b := by
    rw [le_div_iff₀ hfb0]
    have : (2 : ℚ) ^ (-63 : ℤ) * F32.roundQ b ≤ 1 := by
      calc (2 : ℚ) ^ (-63 : ℤ) * F32.roundQ b ≤ 2 ^ (-63 : ℤ) * 2 ^ 63 :=
            mul_le_mul_of_nonneg_left hfb63 (F32.two_zpow_pos _).le
        _ = 1 := by norm_num
    linarith
  have hqn : -149 < F32.ulpExp (F32.roundQ a / F32.roundQ b) := by
    have hl : (-63 : ℤ) ≤ Int.log 2 (F32.roundQ a / F32.roundQ b) := by
      rw [← Int.zpow_le_iff_le_log (by norm_num) hq0]
      simpa using hqlow
    rw [F32.ulpExp, abs_of_pos hq0]
    omega
  have eq := abs_le.1 (F32.abs_roundQ_sub_le hq0 hqn)
  have hmid : |F32.roundQ a / F32.roundQ b - (a : ℚ) / b| ≤ 3 / 2 ^ 24 := by
    rw [div_sub_div _ _ (ne_of_gt hfb0) (ne_of_gt hB0), abs_le]
    have hden : 0 < F32.roundQ b * (b : ℚ) := mul_pos hfb0 hB0
    have p1 := mul_le_mul_of_nonneg_right ea.2 hB0.le
    have p2 := mul_le_mul_of_nonneg_right ea.1 hB0.le
    have p3 := mul_le_mul_of_nonneg_right eb.2 hA0.le
    have p4 := mul_le_mul_of_nonneg_right eb.1 hA0.le
    have p5 := mul_le_mul_of_nonneg_right hAB hB0.le
    have p6 := mul_le_mul_of_nonneg_right eb.1 hB0.le
    constructor
    · rw [le_div_iff₀ hden]
      linarith
    · rw [div_le_iff₀ hden]
      linarith
  have hmid2 := abs_le.1 hmid
  rw [abs_le]
  constructor <;> linarith [eq.1, eq.2, hmid2.1, hmid2.2]

/-- C4. For a record with the cache unset, `Sended ≥ 1` (a Go `int`) and
`0 ≤ Received ≤ Sended`, every call of `getRecvRate`, the first and each later
one, returns the `float32` quotient `(Sended - Received) / Sended`; that value
is a number between 0 and 1, within `2^-22` of the exact quotient; and the
record after the call has the fields of the first one, the cached rate apart. -/
theorem getRecvRate_lossRate (cf : CloudflareIPData)
    (hfresh : cf.recvRate = GoFloat.fin 0)
    (hS1 : 1 ≤ cf.Sended) (hS : cf.Sended < 2 ^ 63)
    (hR0 : 0 ≤ cf.Received) (hR : cf.Received ≤ cf.Sended) :
    ∃ q : ℚ,
      F32.div (F32.ofInt (cf.Sended - cf.Received)) (F32.ofInt cf.Sended) = GoFloat.fin q ∧
      0 ≤ q ∧ q ≤ 1 ∧
      |q - ((cf.Sended - cf.Received : ℤ) : ℚ) / (cf.Sended : ℚ)| ≤ 1 / 2 ^ 22 ∧
      ∀ n : Nat,
        (cf.afterCalls n).getRecvRate.1 = GoFloat.fin q ∧
        (cf.afterCalls n).getRecvRate.2.toPingData = cf.toPingData ∧
        (cf.afterCalls n).getRecvRate.2.DownloadSpeed = cf.DownloadSpeed := by
  have hl0 : 0 ≤ cf.Sended - cf.Received := by omega
  have hl1 : cf.Sended - cf.Received ≤ cf.Sended := by omega
  have hdiv := F32.div_counts hl0 hl1 hS1 hS
  refine ⟨_, hdiv.1, hdiv.2.1, hdiv.2.2, F32.rate_error hl0 hl1 hS1 hS, ?_⟩
  intro n
  have hr : cf.computedRate = GoFloat.fin
      (F32.roundQ (F32.roundQ ((cf.Sended - cf.Received : ℤ) : ℚ) / F32.roundQ (cf.Sended : ℚ))) := by
    rw [CloudflareIPData.computedRate, wrapInt64_sub hR0 hR hS]
    exact hdiv.1
  have hinv := afterCalls_inv _ n cf hr (Or.inl hfresh)
  have hr2 : (cf.afterCalls n).computedRate = GoFloat.fin
      (F32.roundQ (F32.roundQ ((cf.Sended - cf.Received : ℤ) : ℚ) / F32.roundQ (cf.Sended : ℚ))) := by
    rw [← hr]
    simp only [CloudflareIPData.computedRate]
    rw [hinv.1]
  have hstep := getRecvRate_of_cache (cf.afterCalls n) _ hr2 hinv.2.2
  exact ⟨hstep.1, hstep.2.1.trans hinv.1, hstep.2.2.1.trans hinv.2.1⟩

/-- C4, on a fresh record with four probes sent and three received. -/
theorem getRecvRate_lossRate_witness :
    ∃ q : ℚ,
      F32.div (F32.ofInt ((probe 10 4 3).Sended - (probe 10 4 3).Received))
        (F32.ofInt (probe 10 4 3).Sended) = GoFloat.fin q ∧
      0 ≤ q ∧ q ≤ 1 ∧
      |q - (((probe 10 4 3).Sended - (probe 10 4 3).Received : ℤ) : ℚ) /
        ((probe 10 4 3).Sended : ℚ)| ≤ 1 / 2 ^ 22 ∧
      ∀ n : Nat,
        ((probe 10 4 3).afterCalls n).getRecvRate.1 = GoFloat.fin q ∧
        ((probe 10 4 3).afterCalls n).getRecvRate.2.toPingData = (probe 10 4 3).toPingData ∧
        ((probe 10 4 3).afterCalls n).getRecvRate.2.DownloadSpeed =
          (probe 10 4 3).DownloadSpeed :=
  getRecvRate_lossRate (probe 10 4 3) rfl (by decide) (by decide) (by decide) (by decide)

/-! ## Ordering by loss rate and delay -/

/-- A call of `getRecvRate` leaves the counts and the delay in place. -/
theorem getRecvRate_toPingData (c : CloudflareIPData) :
    c.getRecvRate.2.toPingData = c.toPingData := by
  unfold CloudflareIPData.getRecvRate
  split <;> rfl

/-- A second call of `getRecvRate` returns what the first one did. -/
theorem getRecvRate_twice (c : CloudflareIPData) :
    c.getRecvRate.2.getRecvRate.1 = c.getRecvRate.1 := by
  by_cases h : GoFloat.eq c.recvRate (GoFloat.fin 0) = true
  · have h1 : c.getRecvRate = (c.computedRate, { c with recvRate := c.computedRate }) := by
      simp [CloudflareIPData.getRecvRate, h, CloudflareIPData.computedRate]
    rw [h1]
    simp only [CloudflareIPData.getRecvRate]
    split <;> rfl
  · have h1 : c.getRecvRate = (c.recvRate, c) := by
      simp [CloudflareIPData.getRecvRate, h]
    rw [h1]
    simp [CloudflareIPData.getRecvRate, h]

/-- The verdict of `PingDelaySet.Less` on two positions of a slice, in terms
of the rates `getRecvRate` returns for the two records and of their delays. -/
theorem Less_verdict (s : PingDelaySet) (i j : Nat) (a b : CloudflareIPData)
    (hi : s[i]? = some a) (hj : s[j]? = some b) :
    (PingDelaySet.Less s i j).map Prod.fst =
      some (if GoFloat.ne a.getRecvRate.1 b.getRecvRate.1
        then GoFloat.lt a.getRecvRate.1 b.getRecvRate.1
        else decide (a.Delay < b.Delay)) := by
  have hil : i < s.length := (List.getElem?_eq_some_iff.1 hi).1
  have hjl : j < s.length := (List.getElem?_eq_some_iff.1 hj).1
  by_cases hij : i = j
  · subst hij
    have hab : b = a := by
      rw [hi] at hj
      exact (Option.some.inj hj).symm
    subst hab
    have hd : b.getRecvRate.2.getRecvRate.2.Delay = b.Delay := by
      have h1 := getRecvRate_toPingData b.getRecvRate.2
      have h2 := getRecvRate_toPingData b
      have : b.getRecvRate.2.getRecvRate.2.toPingData = b.toPingData := h1.trans h2
      exact congrArg PingData.Delay this
    simp only [PingDelaySet.Less, hi, hil, List.getElem?_set, getRecvRate_twice, hd,
      Option.bind_eq_bind, Option.some_bind, if_true, List.length_set, lt_self_iff_false,
      decide_False, Option.pure_def]
    by_cases hne : GoFloat.ne b.getRecvRate.1 b.getRecvRate.1 = true <;> simp [hne]
  · have hd1 : a.getRecvRate.2.Delay = a.Delay :=
      congrArg PingData.Delay (getRecvRate_toPingData a)
    have hd2 : b.getRecvRate.2.Delay = b.Delay :=
      congrArg PingData.Delay (getRecvRate_toPingData b)
    have hji : ¬ j = i := fun h => hij h.symm
    simp only [PingDelaySet.Less, hi, hj, hil, hjl, List.getElem?_set, hij, hji, hd1, hd2,
      Option.bind_eq_bind, Option.some_bind, if_true, if_false, List.length_set,
      Option.pure_def]
    by_cases hne : GoFloat.ne a.getRecvRate.1 b.getRecvRate.1 = true <;> simp [hne]

/-- With at most `2^24` probes sent, the counts convert exactly and the rate
`getRecvRate` returns is the exact loss rate rounded once. -/
theorem getRecvRate_small (c : CloudflareIPData) (hv : c.CacheValid)
    (hS1 : 1 ≤ c.Sended) (hS : c.Sended ≤ 2 ^ 24)
    (hR0 : 0 ≤ c.Received) (hR : c.Received ≤ c.Sended) :
    c.getRecvRate.1 =
      GoFloat.fin (F32.roundQ (((c.Sended - c.Received : ℤ) : ℚ) / (c.Sended : ℚ))) := by
  have hl0 : 0 ≤ c.Sended - c.Received := by omega
  have hl1 : c.Sended - c.Received ≤ c.Sended := by omega
  have hdiv := (F32.div_counts hl0 hl1 hS1 (by omega)).1
  rw [F32.roundQ_intCast hl0 (by omega), F32.roundQ_intCast (by omega) hS] at hdiv
  have hr : c.computedRate = GoFloat.fin
      (F32.roundQ (((c.Sended - c.Received : ℤ) : ℚ) / (c.Sended : ℚ))) := by
    rw [CloudflareIPData.computedRate, wrapInt64_sub hR0 hR (by omega)]
    exact hdiv
  have hc : c.recvRate = GoFloat.fin 0 ∨ c.recvRate = GoFloat.fin
      (F32.roundQ (((c.Sended - c.Received : ℤ) : ℚ) / (c.Sended : ℚ))) := by
    rcases hv with h | h
    · exact Or.inl h
    · exact Or.inr (h.trans hr)
  exact (getRecvRate_of_cache c _ hr hc).1

/-- With at most `2^24` probes sent and one answered, the rounded loss rate is
below one. -/
theorem F32.roundQ_loss_lt_one {S R : ℤ} (hS : S ≤ 2 ^ 24) (hR0 : 0 < R) (hR : R ≤ S) :
    F32.roundQ (((S - R : ℤ) : ℚ) / (S : ℚ)) < 1 := by
  have hSq : (0 : ℚ) < S := by exact_mod_cast (by omega : 0 < S)
  have hS24 : (S : ℚ) ≤ 2 ^ 24 := by exact_mod_cast hS
  have hRq : (1 : ℚ) ≤ R := by exact_mod_cast (by omega : 1 ≤ R)
  have hRS : (R : ℚ) ≤ S := by exact_mod_cast hR
  have h0 : (0 : ℚ) ≤ ((S - R : ℤ) : ℚ) / (S : ℚ) := by
    apply div_nonneg _ hSq.le
    push_cast
    linarith
  have hle : ((S - R : ℤ) : ℚ) / (S : ℚ) ≤ 1 - 1 / 2 ^ 24 := by
    rw [div_le_iff₀ hSq]
    push_cast
    have : (1 : ℚ) / 2 ^ 24 * S ≤ 1 := by
      rw [div_mul_eq_mul_div, one_mul, div_le_one (by norm_num)]
      exact hS24
    linarith
  have := F32.roundQ_mono h0 hle
  rw [F32.roundQ_pred_one] at this
  have hlt : (1 : ℚ) - 1 / 2 ^ 24 < 1 := by norm_num
  exact lt_of_le_of_lt this hlt

/-- The integer `2^24 + 1` is not a `float32`: it converts to `2^24` (a tie,
resolved to the even significand). -/
theorem F32.ofInt_16777217 : F32.ofInt 16777217 = GoFloat.fin 16777216 := by
  have hu : F32.ulpExp ((16777217 : ℤ) : ℚ) = 1 := by
    rw [F32.ulpExp_of_bounds (k := 24) (by norm_num) (by norm_num)]
    decide
  have hr : F32.rne (((16777217 : ℤ) : ℚ) / 2 ^ (1 : ℤ)) = 8388608 := by
    have hf : ⌊((16777217 : ℤ) : ℚ) / 2 ^ (1 : ℤ)⌋ = 8388608 := by
      rw [Int.floor_eq_iff]
      norm_num
    unfold F32.rne
    simp only [hf]
    norm_num
  have hq : F32.roundQ ((16777217 : ℤ) : ℚ) = 16777216 := by
    unfold F32.roundQ
    rw [hu, hr]
    norm_num
  rw [F32.ofInt, F32.ofRat_fin] <;> rw [hq]
  norm_num

/-- The integer `2^24` converts to `float32` as it is. -/
theorem F32.ofInt_16777216 : F32.ofInt 16777216 = GoFloat.fin 16777216 := by
  rw [F32.ofInt_fin (by norm_num) (by norm_num), F32.roundQ_intCast (by norm_num) (by norm_num)]
  norm_num

/-- The `float32` quotient of `2^24` by itself is one. -/
theorem F32.div_16777216_self :
    F32.div (GoFloat.fin 16777216) (GoFloat.fin 16777216) = GoFloat.fin 1 := by
  have h1 : F32.roundQ 1 = 1 := by
    simpa using F32.roundQ_intCast (n := 1) (by norm_num) (by norm_num)
  simp only [F32.div]
  rw [if_neg (by norm_num), div_self (by norm_num), F32.ofRat_fin] <;> rw [h1]
  norm_num

/-- C3, as stated, fails: with 16777217 probes sent, a record with one probe
answered and a record with none get the same `float32` rate, 1, and `Less`
falls through to the delays: the answered record, slower, is not ranked first. -/
theorem Less_many_sent_not_first :
    (1 ≤ (probe 20 16777217 1).Sended ∧ 0 < (probe 20 16777217 1).Received ∧
      (probe 20 16777217 1).Received ≤ (probe 20 16777217 1).Sended) ∧
    (1 ≤ (probe 10 16777217 0).Sended ∧ (probe 10 16777217 0).Received = 0) ∧
    (PingDelaySet.Less sampleManySent 0 1).map Prod.fst = some false ∧
    (PingDelaySet.Less sampleManySent 1 0).map Prod.fst = some true := by
  have ha : (probe 20 16777217 1).getRecvRate.1 = GoFloat.fin 1 := by
    simp only [CloudflareIPData.getRecvRate, probe, GoFloat.eq, decide_True, if_true]
    rw [show wrapInt64 (16777217 - 1) = 16777216 by decide, F32.ofInt_16777216,
      F32.ofInt_16777217, F32.div_16777216_self]
  have hb : (probe 10 16777217 0).getRecvRate.1 = GoFloat.fin 1 := by
    simp only [CloudflareIPData.getRecvRate, probe, GoFloat.eq, decide_True, if_true]
    rw [show wrapInt64 (16777217 - 0) = 16777217 by decide,
      F32.ofInt_16777217, F32.div_16777216_self]
  refine ⟨by decide, by decide, ?_, ?_⟩
  · rw [Less_verdict sampleManySent 0 1 (probe 20 16777217 1) (probe 10 16777217 0) rfl rfl,
      ha, hb]
    decide
  · rw [Less_verdict sampleManySent 1 0 (probe 10 16777217 0) (probe 20 16777217 1) rfl rfl,
      ha, hb]
    decide

/-- C3, amended. For two records of a slice with valid caches, `1 ≤ Sended ≤
2^24` and `0 ≤ Received ≤ Sended`: if the first was answered and the second was
not, `Less` ranks the first before the second and not the second before the
first; and if their loss rates are equal, `Less` holds exactly when the first
has the smaller delay. -/
theorem Less_loss_then_delay (s : PingDelaySet) (i j : Nat) (a b : CloudflareIPData)
    (hi : s[i]? = some a) (hj : s[j]? = some b)
    (hva : a.CacheValid) (hvb : b.CacheValid)
    (haS1 : 1 ≤ a.Sended) (haS : a.Sended ≤ 2 ^ 24)
    (haR0 : 0 ≤ a.Received) (haR : a.Received ≤ a.Sended)
    (hbS1 : 1 ≤ b.Sended) (hbS : b.Sended ≤ 2 ^ 24)
    (hbR0 : 0 ≤ b.Received) (hbR : b.Received ≤ b.Sended) :
    (0 < a.Received → b.Received = 0 →
      (PingDelaySet.Less s i j).map Prod.fst = some true ∧
      (PingDelaySet.Less s j i).map Prod.fst = some false) ∧
    (((a.Sended - a.Received : ℤ) : ℚ) / (a.Sended : ℚ) =
        ((b.Sended - b.Received : ℤ) : ℚ) / (b.Sended : ℚ) →
      (PingDelaySet.Less s i j).map Prod.fst = some (decide (a.Delay < b.Delay))) := by
  have hra := getRecvRate_small a hva haS1 haS haR0 haR
  have hrb := getRecvRate_small b hvb hbS1 hbS hbR0 hbR
  constructor
  · intro hapos hbzero
    have hlt := F32.roundQ_loss_lt_one haS hapos haR
    have hone : F32.roundQ (((b.Sended - b.Received : ℤ) : ℚ) / (b.Sended : ℚ)) = 1 := by
      have hbq : (b.Sended : ℚ) ≠ 0 := by
        have : (0 : ℚ) < b.Sended := by exact_mod_cast (by omega : 0 < b.Sended)
        exact ne_of_gt this
      rw [hbzero, sub_zero, div_self hbq]
      simpa using F32.roundQ_intCast (n := 1) (by norm_num) (by norm_num)
    rw [hone] at hrb
    rw [Less_verdict s i j a b hi hj, Less_verdict s j i b a hj hi, hra, hrb]
    have hne : F32.roundQ (((a.Sended - a.Received : ℤ) : ℚ) / (a.Sended : ℚ)) ≠ 1 :=
      ne_of_lt hlt
    have hne2 : (1 : ℚ) ≠ F32.roundQ (((a.Sended - a.Received : ℤ) : ℚ) / (a.Sended : ℚ)) :=
      fun h => hne h.symm
    have hle := le_of_lt hlt
    push_cast at hlt hne hne2 hle
    simp [GoFloat.ne, GoFloat.eq, GoFloat.lt, hne, hne2, hlt, hle]
  · intro heq
    rw [Less_verdict s i j a b hi hj, hra, hrb, heq]
    simp [GoFloat.ne, GoFloat.eq]

/-- C3, amended, on two slices of fresh records: four probes all answered
before four probes none answered; and two records of loss rate one quarter,
where the delays decide. -/
theorem Less_loss_then_delay_witness :
    ((PingDelaySet.Less [probe 60 4 4, probe 10 4 0] 0 1).map Prod.fst = some true ∧
      (PingDelaySet.Less [probe 60 4 4, probe 10 4 0] 1 0).map Prod.fst = some false) ∧
    (PingDelaySet.Less [probe 60 4 3, probe 10 8 6] 0 1).map Prod.fst =
      some (decide ((probe 60 4 3).Delay < (probe 10 8 6).Delay)) :=
  ⟨(Less_loss_then_delay [probe 60 4 4, probe 10 4 0] 0 1 (probe 60 4 4) (probe 10 4 0) rfl rfl
      (Or.inl rfl) (Or.inl rfl) (by decide) (by decide) (by decide) (by decide)
      (by decide) (by decide) (by decide) (by decide)).1 (by decide) rfl,
    (Less_loss_then_delay [probe 60 4 3, probe 10 8 6] 0 1 (probe 60 4 3) (probe 10 8 6) rfl rfl
      (Or.inl rfl) (Or.inl rfl) (by decide) (by decide) (by decide) (by decide)
      (by decide) (by decide) (by decide) (by decide)).2 (by norm_num [probe])⟩

/-- One quarter is a `float32`. -/
theorem F32.roundQ_quarter : F32.roundQ (1 / 4) = 1 / 4 := by
  apply F32.roundQ_exact (-2) (2 ^ 23) <;> norm_num

/-- C6, at its failing input. The list is ranked as `Less` ranks it (no loss
at 60 ms before one probe in four lost at 10 ms); under the window from 0 to
50 ms `FilterDelay` stops at the first record and returns nothing, although
the second record lies in the window. -/
theorem FilterDelay_ranked_loses_record :
    (PingDelaySet.Less sampleRanked 0 1).map Prod.fst = some true ∧
    (PingDelaySet.Less sampleRanked 1 0).map Prod.fst = some false ∧
    PingDelaySet.FilterDelay (50 * Millisecond) 0 sampleRanked = [] ∧
    sampleRanked.filter
      (fun v => decide (0 ≤ v.Delay ∧ v.Delay ≤ 50 * Millisecond)) = [probe 10 4 3] := by
  have ha : (probe 60 4 4).getRecvRate.1 = GoFloat.fin 0 := by
    rw [getRecvRate_small (probe 60 4 4) (Or.inl rfl) (by decide) (by decide) (by decide)
      (by decide)]
    simp [probe, F32.roundQ_zero]
  have hb : (probe 10 4 3).getRecvRate.1 = GoFloat.fin (1 / 4) := by
    rw [getRecvRate_small (probe 10 4 3) (Or.inl rfl) (by decide) (by decide) (by decide)
      (by decide)]
    have : (((probe 10 4 3).Sended - (probe 10 4 3).Received : ℤ) : ℚ) /
        ((probe 10 4 3).Sended : ℚ) = 1 / 4 := by
      norm_num [probe]
    rw [this, F32.roundQ_quarter]
  refine ⟨?_, ?_, by decide, by decide⟩
  · rw [Less_verdict sampleRanked 0 1 (probe 60 4 4) (probe 10 4 3) rfl rfl, ha, hb]
    simp [GoFloat.ne, GoFloat.eq, GoFloat.lt]
  · rw [Less_verdict sampleRanked 1 0 (probe 10 4 3) (probe 60 4 4) rfl rfl, ha, hb]
    simp [GoFloat.ne, GoFloat.eq, GoFloat.lt]

end CloudflareSpeedTest
